import Mathlib

/-!
Verification of the Hub-OS netplay input-buffer core and protocol message
types: a shallow embedding of `src/packets/src/netplay_packets.rs`,
`src/client/src/saves/player_input_buffer.rs` and
`src/client/src/bindable/drag.rs`, with theorems about the embedded
operations.

Embedding conventions:
- Rust `usize` values are modelled as `Nat`.  Rust `a -= 1` on a `usize`
  panics on underflow in debug builds and wraps in release builds; the
  model uses truncated `Nat` subtraction.  Every theorem below that relies
  on a subtraction either guards it exactly as the source does, or carries
  hypotheses (run counts at least 1, `len` in sync) under which the
  subtracted value is positive, so the truncation is never exercised in a
  proved statement.
- `VecDeque` is modelled as a `List` whose head is the deque front; the
  back-end operations (`push_back` / `back_mut` / `pop_back`) become
  structural recursion on the list.
-/

/-- Modelled from the spec: `Input` is an external, equality-comparable
token for one held control (src imports it from `crate::structures`, which
is outside the provided sources).  Modelled as `Nat`. -/
abbrev Input := Nat

/-- Modelled from the spec: external package identifier type. -/
abbrev PackageId := String

/-- Modelled from the spec: external content-hash identifier type. -/
abbrev FileHash := Nat

/-- Modelled from the spec: external package category token. -/
abbrev PackageCategory := Nat

/-- Modelled from the spec: external equipped-block description. -/
abbrev InstalledBlock := Nat

/-- Modelled from the spec: external equipped-drive description. -/
abbrev InstalledSwitchDrive := Nat

/-- `NetplaySignal` from `src/packets/src/netplay_packets.rs`. -/
inductive NetplaySignal
  | attemptingFlee
  | completedFlee
  | disconnect
deriving DecidableEq, Repr

/-- `NetplayBufferItem` from `src/packets/src/netplay_packets.rs`: the
per-frame unit, a list of pressed inputs plus a list of signals.  The
derived Rust `PartialEq`/`Eq` compares the `Vec` fields element-wise in
order, which the derived structural equality here mirrors. -/
structure NetplayBufferItem where
  pressed : List Input
  signals : List NetplaySignal
deriving DecidableEq, Repr

/-- Rust `#[derive(Default)]`: both vectors empty.  `default` plays the
role of `NetplayBufferItem::default()`. -/
instance : Inhabited NetplayBufferItem := ⟨⟨[], []⟩⟩

/-- `NetplayPacketData` from `src/packets/src/netplay_packets.rs`. -/
inductive NetplayPacketData
  | heartbeat
  | hello
  | helloAck
  | playerSetup (player_package : PackageId) (script_enabled : Bool)
      (cards : List (PackageId × String)) (regular_card : Option Nat)
      (recipes : List PackageId) (blocks : List InstalledBlock)
      (drives : List InstalledSwitchDrive)
  | packageList (packages : List (PackageCategory × PackageId × FileHash))
  | missingPackages (recipient_index : Nat) (list : List FileHash)
  | readyForPackages
  | packageZip (data : List Nat)
  | ready
  | buffer (data : NetplayBufferItem) (lead : List Int)
deriving DecidableEq

/-- `NetplayPacket` from `src/packets/src/netplay_packets.rs`. -/
structure NetplayPacket where
  index : Nat
  data : NetplayPacketData
deriving DecidableEq

/-- `NetplayPacket::new_disconnect_signal`. -/
def NetplayPacket.new_disconnect_signal (index : Nat) : NetplayPacket :=
  { index := index
    data := NetplayPacketData.buffer
      { pressed := [], signals := [NetplaySignal.disconnect] } [] }

/-- `PlayerInputBuffer` from `src/client/src/saves/player_input_buffer.rs`:
a run-length-encoded deque of `(frame, count)` pairs (list head = deque
front) plus a cached logical length. -/
structure PlayerInputBuffer where
  buffer : List (NetplayBufferItem × Nat)
  len : Nat
deriving DecidableEq

namespace PlayerInputBuffer

/-- `PlayerInputBuffer::new_with_delay`. -/
def new_with_delay (delay : Nat) : PlayerInputBuffer :=
  { buffer := [(default, delay)], len := delay }

/-- `PlayerInputBuffer::is_empty`. -/
def is_empty (b : PlayerInputBuffer) : Bool :=
  b.len == 0

/-- The back-end update of `push_last`: if the deque's back run holds an
equal frame, increment its count, otherwise push a fresh `(input, 1)` run.
Recursion on the front-headed list reaches the deque back at the final
element. -/
def pushRuns : List (NetplayBufferItem × Nat) → NetplayBufferItem →
    List (NetplayBufferItem × Nat)
  | [], x => [(x, 1)]
  | [(f, c)], x => if f = x then [(f, c + 1)] else [(f, c), (x, 1)]
  | r :: s :: rest, x => r :: pushRuns (s :: rest) x

/-- `PlayerInputBuffer::push_last`: always increments `len` by 1. -/
def push_last (b : PlayerInputBuffer) (input : NetplayBufferItem) :
    PlayerInputBuffer :=
  { buffer := pushRuns b.buffer input, len := b.len + 1 }

/-- The back-end update of `delete_last` on a nonempty deque: decrement
the back run's count and drop the run when the count reaches 0. -/
def deleteRuns : List (NetplayBufferItem × Nat) → List (NetplayBufferItem × Nat)
  | [] => []
  | [(f, c)] => if c - 1 = 0 then [] else [(f, c - 1)]
  | r :: s :: rest => r :: deleteRuns (s :: rest)

/-- `PlayerInputBuffer::delete_last`: early-returns (no `len` change) when
the deque has no back element, otherwise decrements `len` and the back
run's count, dropping the run at count 0. -/
def delete_last (b : PlayerInputBuffer) : PlayerInputBuffer :=
  if b.buffer.isEmpty then b
  else { buffer := deleteRuns b.buffer, len := b.len - 1 }

/-- `PlayerInputBuffer::peek_next`: the front run's frame. -/
def peek_next (b : PlayerInputBuffer) : Option NetplayBufferItem :=
  b.buffer.head?.map (·.1)

/-- `PlayerInputBuffer::pop_next`: returns the consumed frame and the new
state.  On an empty deque the `?` on `front_mut` returns `None` before any
mutation; otherwise `len` and the front count are decremented and the
front run is removed when its count reaches 0. -/
def pop_next (b : PlayerInputBuffer) :
    Option NetplayBufferItem × PlayerInputBuffer :=
  match b.buffer with
  | [] => (none, b)
  | (f, c) :: rest =>
    if c - 1 = 0 then (some f, { buffer := rest, len := b.len - 1 })
    else (some f, { buffer := (f, c - 1) :: rest, len := b.len - 1 })

/-- The run walk of `PlayerInputBuffer::get`: stop at the first run whose
count exceeds the remaining index, otherwise subtract the count (the
subtraction only happens under `count ≤ index`, so it is exact). -/
def getRuns : List (NetplayBufferItem × Nat) → Nat → Option NetplayBufferItem
  | [], _ => none
  | (f, c) :: rest, index => if c > index then some f else getRuns rest (index - c)

/-- `PlayerInputBuffer::get`. -/
def get (b : PlayerInputBuffer) (index : Nat) : Option NetplayBufferItem :=
  getRuns b.buffer index

/-- `PlayerInputBuffer::clear`. -/
def clear (_b : PlayerInputBuffer) : PlayerInputBuffer :=
  { buffer := [], len := 0 }

/-- Sum of the stored run counts. -/
def sumCounts (runs : List (NetplayBufferItem × Nat)) : Nat :=
  (runs.map (·.2)).sum

/-- The uncompressed logical frame sequence a run list denotes. -/
def runsToList (runs : List (NetplayBufferItem × Nat)) : List NetplayBufferItem :=
  (runs.map fun r => List.replicate r.2 r.1).flatten

/-- The uncompressed logical frame sequence of a buffer, oldest first. -/
def toList (b : PlayerInputBuffer) : List NetplayBufferItem :=
  runsToList b.buffer

/-- The structural invariant of the run-length encoding: every run count
is at least 1, adjacent runs hold distinct frames, and the cached `len`
equals the sum of run counts. -/
def Invariant (b : PlayerInputBuffer) : Prop :=
  (∀ r ∈ b.buffer, 1 ≤ r.2) ∧
    b.buffer.Chain' (fun r s => r.1 ≠ s.1) ∧
    b.len = sumCounts b.buffer

/-- States reachable from `new_with_delay delay` by the buffer's mutating
operations. -/
inductive Reachable (delay : Nat) : PlayerInputBuffer → Prop
  | init : Reachable delay (new_with_delay delay)
  | push (x : NetplayBufferItem) {b : PlayerInputBuffer} :
      Reachable delay b → Reachable delay (b.push_last x)
  | pop {b : PlayerInputBuffer} :
      Reachable delay b → Reachable delay (b.pop_next).2
  | del {b : PlayerInputBuffer} :
      Reachable delay b → Reachable delay b.delete_last
  | wipe {b : PlayerInputBuffer} :
      Reachable delay b → Reachable delay b.clear

/-- Popping `n` times: states only. -/
def popN (b : PlayerInputBuffer) : Nat → PlayerInputBuffer
  | 0 => b
  | n + 1 => popN (b.pop_next).2 n

/-- Popping `n` times, collecting each `pop_next` result in order. -/
def drainOpt (b : PlayerInputBuffer) : Nat → List (Option NetplayBufferItem)
  | 0 => []
  | n + 1 => (b.pop_next).1 :: drainOpt (b.pop_next).2 n

end PlayerInputBuffer

/-- Order-independent equality of two frames, following the spec's words:
the pressed sets and the signal sets agree as sets (element order and
multiplicity ignored). -/
def NetplayBufferItem.sameSets (a b : NetplayBufferItem) : Prop :=
  (∀ x ∈ a.pressed, x ∈ b.pressed) ∧ (∀ x ∈ b.pressed, x ∈ a.pressed) ∧
    (∀ s ∈ a.signals, s ∈ b.signals) ∧ (∀ s ∈ b.signals, s ∈ a.signals)

instance (a b : NetplayBufferItem) : Decidable (a.sameSets b) := by
  unfold NetplayBufferItem.sameSets
  infer_instance

namespace PlayerInputBuffer

/-! ### Helper lemmas about the run lists -/

@[simp]
theorem runsToList_nil : runsToList [] = [] := rfl

@[simp]
theorem runsToList_cons (r : NetplayBufferItem × Nat)
    (l : List (NetplayBufferItem × Nat)) :
    runsToList (r :: l) = List.replicate r.2 r.1 ++ runsToList l := by
  simp [runsToList]

@[simp]
theorem sumCounts_nil : sumCounts [] = 0 := rfl

@[simp]
theorem sumCounts_cons (r : NetplayBufferItem × Nat)
    (l : List (NetplayBufferItem × Nat)) :
    sumCounts (r :: l) = r.2 + sumCounts l := by
  simp [sumCounts]

theorem length_runsToList (runs : List (NetplayBufferItem × Nat)) :
    (runsToList runs).length = sumCounts runs := by
  induction runs with
  | nil => rfl
  | cons r rest ih => simp [ih]

theorem pushRuns_ne_nil (runs : List (NetplayBufferItem × Nat))
    (x : NetplayBufferItem) : pushRuns runs x ≠ [] := by
  match runs with
  | [] => simp [pushRuns]
  | [(f, c)] =>
    by_cases h : f = x <;> simp [pushRuns, h]
  | r :: s :: rest => simp [pushRuns]

theorem runsToList_pushRuns (runs : List (NetplayBufferItem × Nat))
    (x : NetplayBufferItem) :
    runsToList (pushRuns runs x) = runsToList runs ++ [x] := by
  induction runs with
  | nil => simp [pushRuns]
  | cons r rest ih =>
    cases rest with
    | nil =>
      obtain ⟨f, c⟩ := r
      by_cases h : f = x
      · subst h
        simp [pushRuns, List.replicate_succ']
      · simp [pushRuns, h]
    | cons s rest' =>
      simp only [pushRuns, runsToList_cons, ih, List.append_assoc]

theorem sumCounts_pushRuns (runs : List (NetplayBufferItem × Nat))
    (x : NetplayBufferItem) :
    sumCounts (pushRuns runs x) = sumCounts runs + 1 := by
  induction runs with
  | nil => simp [pushRuns]
  | cons r rest ih =>
    cases rest with
    | nil =>
      obtain ⟨f, c⟩ := r
      by_cases h : f = x
      · simp [pushRuns, h]
      · simp [pushRuns, h]
    | cons s rest' =>
      simp only [pushRuns, sumCounts_cons, ih]
      omega

theorem counts_pushRuns {runs : List (NetplayBufferItem × Nat)}
    (hc : ∀ r ∈ runs, 1 ≤ r.2) (x : NetplayBufferItem) :
    ∀ r ∈ pushRuns runs x, 1 ≤ r.2 := by
  induction runs with
  | nil =>
    intro p hp
    simp only [pushRuns, List.mem_singleton] at hp
    simp [hp]
  | cons r rest ih =>
    cases rest with
    | nil =>
      obtain ⟨f, c⟩ := r
      have hfc : 1 ≤ c := hc (f, c) (by simp)
      intro p hp
      by_cases h : f = x
      · simp only [pushRuns, if_pos h, List.mem_singleton] at hp
        simp [hp]
      · simp only [pushRuns, if_neg h, List.mem_cons, List.mem_singleton] at hp
        rcases hp with hp | hp | hp
        · rw [hp]
          exact hfc
        · simp [hp]
        · simp at hp
    | cons s rest' =>
      intro p hp
      simp only [pushRuns, List.mem_cons] at hp
      rcases hp with hp | hp
      · exact hp ▸ hc r (by simp)
      · exact ih (fun q hq => hc q (List.mem_cons_of_mem _ hq)) p hp

theorem head_item_pushRuns {runs : List (NetplayBufferItem × Nat)}
    (hne : runs ≠ []) (x : NetplayBufferItem) :
    ((pushRuns runs x).head?).map (·.1) = (runs.head?).map (·.1) := by
  match runs with
  | [(f, c)] => by_cases h : f = x <;> simp [pushRuns, h]
  | r :: s :: rest => simp [pushRuns]

theorem chain'_pushRuns {runs : List (NetplayBufferItem × Nat)}
    (hch : runs.Chain' (fun r s => r.1 ≠ s.1)) (x : NetplayBufferItem) :
    (pushRuns runs x).Chain' (fun r s => r.1 ≠ s.1) := by
  induction runs with
  | nil => simp [pushRuns]
  | cons r rest ih =>
    cases rest with
    | nil =>
      obtain ⟨f, c⟩ := r
      by_cases h : f = x <;> simp [pushRuns, h]
    | cons s rest' =>
      rw [List.chain'_cons] at hch
      obtain ⟨hrs, htail⟩ := hch
      simp only [pushRuns]
      rw [List.chain'_cons']
      refine ⟨?_, ih htail⟩
      intro y hy
      have hmap := @head_item_pushRuns (s :: rest') (by simp) x
      rw [hy] at hmap
      simp only [List.head?_cons] at hmap
      simp only [Option.map_some'] at hmap
      have hy1 : y.1 = s.1 := by
        simpa using hmap
      rw [hy1]
      exact hrs
end PlayerInputBuffer

namespace PlayerInputBuffer

theorem pushRuns_cons_of_ne_nil {L : List (NetplayBufferItem × Nat)}
    (h : L ≠ []) (r : NetplayBufferItem × Nat) (x : NetplayBufferItem) :
    pushRuns (r :: L) x = r :: pushRuns L x := by
  cases L with
  | nil => exact absurd rfl h
  | cons s rest => simp only [pushRuns]

theorem deleteRuns_cons_of_ne_nil {L : List (NetplayBufferItem × Nat)}
    (h : L ≠ []) (r : NetplayBufferItem × Nat) :
    deleteRuns (r :: L) = r :: deleteRuns L := by
  cases L with
  | nil => exact absurd rfl h
  | cons s rest => simp only [deleteRuns]

theorem counts_deleteRuns {runs : List (NetplayBufferItem × Nat)}
    (hc : ∀ r ∈ runs, 1 ≤ r.2) :
    ∀ r ∈ deleteRuns runs, 1 ≤ r.2 := by
  induction runs with
  | nil => simp [deleteRuns]
  | cons r rest ih =>
    cases rest with
    | nil =>
      obtain ⟨f, c⟩ := r
      intro p hp
      by_cases h : c - 1 = 0
      · simp only [deleteRuns, if_pos h] at hp
        simp at hp
      · simp only [deleteRuns, if_neg h, List.mem_singleton] at hp
        rw [hp]
        omega
    | cons s rest' =>
      intro p hp
      simp only [deleteRuns, List.mem_cons] at hp
      rcases hp with hp | hp
      · exact hp ▸ hc r (by simp)
      · exact ih (fun q hq => hc q (List.mem_cons_of_mem _ hq)) p hp

theorem head_item_deleteRuns {runs : List (NetplayBufferItem × Nat)}
    {p : NetplayBufferItem × Nat} (h : (deleteRuns runs).head? = some p) :
    ∃ c, runs.head? = some (p.1, c) := by
  match runs with
  | [] => simp [deleteRuns] at h
  | [(f, c)] =>
    by_cases hc : c - 1 = 0
    · simp [deleteRuns, hc] at h
    · simp only [deleteRuns, if_neg hc, List.head?_cons, Option.some_inj] at h
      exact ⟨c, by simp [← h]⟩
  | r :: s :: rest =>
    simp only [deleteRuns, List.head?_cons, Option.some_inj] at h
    exact ⟨r.2, by simp [← h]⟩

theorem chain'_deleteRuns {runs : List (NetplayBufferItem × Nat)}
    (hch : runs.Chain' (fun r s => r.1 ≠ s.1)) :
    (deleteRuns runs).Chain' (fun r s => r.1 ≠ s.1) := by
  induction runs with
  | nil => simp [deleteRuns]
  | cons r rest ih =>
    cases rest with
    | nil =>
      obtain ⟨f, c⟩ := r
      by_cases h : c - 1 = 0 <;> simp [deleteRuns, h]
    | cons s rest' =>
      rw [List.chain'_cons] at hch
      obtain ⟨hrs, htail⟩ := hch
      simp only [deleteRuns]
      rw [List.chain'_cons']
      refine ⟨?_, ih htail⟩
      intro y hy
      obtain ⟨c, hc⟩ := head_item_deleteRuns hy
      simp only [List.head?_cons, Option.some_inj] at hc
      have : y.1 = s.1 := by
        have := congrArg Prod.fst hc
        simpa using this.symm
      rw [this]
      exact hrs

theorem sumCounts_deleteRuns {runs : List (NetplayBufferItem × Nat)}
    (hc : ∀ r ∈ runs, 1 ≤ r.2) :
    sumCounts (deleteRuns runs) = sumCounts runs - 1 := by
  induction runs with
  | nil => simp [deleteRuns]
  | cons r rest ih =>
    cases rest with
    | nil =>
      obtain ⟨f, c⟩ := r
      by_cases h : c - 1 = 0
      · simp [deleteRuns, h]
      · simp [deleteRuns, h]
    | cons s rest' =>
      have hs : 1 ≤ sumCounts (s :: rest') := by
        have := hc s (by simp)
        simp only [sumCounts_cons]
        omega
      have ihs := ih (fun q hq => hc q (List.mem_cons_of_mem _ hq))
      simp only [sumCounts_cons] at hs ihs ⊢
      simp only [deleteRuns, sumCounts_cons]
      omega

theorem delete_pushRuns {runs : List (NetplayBufferItem × Nat)}
    (hc : ∀ r ∈ runs, 1 ≤ r.2) (x : NetplayBufferItem) :
    deleteRuns (pushRuns runs x) = runs := by
  induction runs with
  | nil => simp [pushRuns, deleteRuns]
  | cons r rest ih =>
    cases rest with
    | nil =>
      obtain ⟨f, c⟩ := r
      have hfc : 1 ≤ c := hc (f, c) (by simp)
      by_cases h : f = x
      · have : ¬(c + 1 - 1 = 0) := by omega
        simp [pushRuns, deleteRuns, h, this]
        omega
      · simp [pushRuns, deleteRuns, h]
    | cons s rest' =>
      have hne := pushRuns_ne_nil (s :: rest') x
      rw [pushRuns_cons_of_ne_nil (by simp) r x,
        deleteRuns_cons_of_ne_nil hne r,
        ih (fun q hq => hc q (List.mem_cons_of_mem _ hq))]

end PlayerInputBuffer

namespace PlayerInputBuffer

/-! ### Invariant preservation -/

theorem invariant_new {d : Nat} (hd : 1 ≤ d) : Invariant (new_with_delay d) := by
  refine ⟨?_, ?_, ?_⟩ <;> simp [new_with_delay, Invariant, sumCounts]
  omega

theorem invariant_push {b : PlayerInputBuffer} (h : Invariant b)
    (x : NetplayBufferItem) : Invariant (b.push_last x) := by
  obtain ⟨hc, hch, hl⟩ := h
  refine ⟨counts_pushRuns hc x, chain'_pushRuns hch x, ?_⟩
  simp [push_last, sumCounts_pushRuns, hl]

theorem invariant_delete {b : PlayerInputBuffer} (h : Invariant b) :
    Invariant b.delete_last := by
  obtain ⟨hc, hch, hl⟩ := h
  unfold delete_last
  by_cases he : b.buffer.isEmpty
  · simp only [he, if_pos]
    exact ⟨hc, hch, hl⟩
  · simp only [he, Bool.false_eq_true, if_neg, not_false_iff]
    refine ⟨counts_deleteRuns hc, chain'_deleteRuns hch, ?_⟩
    simp only [sumCounts_deleteRuns hc, hl]

theorem invariant_pop {b : PlayerInputBuffer} (h : Invariant b) :
    Invariant (b.pop_next).2 := by
  obtain ⟨hc, hch, hl⟩ := h
  unfold pop_next
  cases hb : b.buffer with
  | nil => exact ⟨by rw [hb] at hc ⊢; exact hc, by rw [hb] at hch ⊢; exact hch, hl⟩
  | cons r rest =>
    obtain ⟨f, c⟩ := r
    have hc1 : 1 ≤ c := hc (f, c) (by rw [hb]; simp)
    rw [hb] at hl hch hc
    simp only [sumCounts_cons] at hl
    rw [List.chain'_cons'] at hch
    by_cases h0 : c - 1 = 0
    · simp only [if_pos h0]
      refine ⟨fun q hq => hc q (List.mem_cons_of_mem _ hq), hch.2, ?_⟩
      simp only []
      omega
    · simp only [if_neg h0]
      refine ⟨?_, ?_, ?_⟩
      · intro q hq
        rcases List.mem_cons.mp hq with hq | hq
        · rw [hq]
          omega
        · exact hc q (List.mem_cons_of_mem _ hq)
      · rw [List.chain'_cons']
        exact ⟨hch.1, hch.2⟩
      · simp only [sumCounts_cons]
        omega

theorem invariant_clear (b : PlayerInputBuffer) : Invariant b.clear := by
  refine ⟨?_, ?_, ?_⟩ <;> simp [clear, sumCounts]

theorem reachable_invariant {d : Nat} {b : PlayerInputBuffer} (hd : 1 ≤ d)
    (hr : Reachable d b) : Invariant b := by
  induction hr with
  | init => exact invariant_new hd
  | push x _ ih => exact invariant_push ih x
  | pop _ ih => exact invariant_pop ih
  | del _ ih => exact invariant_delete ih
  | wipe _ ih => exact invariant_clear _

/-! ### The uncompressed denotation of each operation -/

theorem toList_new (d : Nat) :
    toList (new_with_delay d) = List.replicate d default := by
  simp [new_with_delay, toList]

theorem toList_push (b : PlayerInputBuffer) (x : NetplayBufferItem) :
    toList (b.push_last x) = toList b ++ [x] :=
  runsToList_pushRuns b.buffer x

theorem len_toList {b : PlayerInputBuffer} (h : b.len = sumCounts b.buffer) :
    b.len = (toList b).length := by
  rw [h, toList, length_runsToList]

theorem peek_eq_head {b : PlayerInputBuffer}
    (hc : ∀ r ∈ b.buffer, 1 ≤ r.2) : b.peek_next = (toList b).head? := by
  unfold peek_next toList
  cases hb : b.buffer with
  | nil => simp
  | cons r rest =>
    obtain ⟨f, c⟩ := r
    have hc1 : 1 ≤ c := hc (f, c) (by rw [hb]; simp)
    obtain ⟨c', rfl⟩ : ∃ c', c = c' + 1 := ⟨c - 1, by omega⟩
    simp [List.replicate_succ]

theorem pop_fst_eq {b : PlayerInputBuffer}
    (hc : ∀ r ∈ b.buffer, 1 ≤ r.2) : (b.pop_next).1 = (toList b).head? := by
  unfold pop_next toList
  cases hb : b.buffer with
  | nil => simp
  | cons r rest =>
    obtain ⟨f, c⟩ := r
    have hc1 : 1 ≤ c := hc (f, c) (by rw [hb]; simp)
    obtain ⟨c', rfl⟩ : ∃ c', c = c' + 1 := ⟨c - 1, by omega⟩
    by_cases h0 : c' = 0
    · simp [h0, List.replicate_succ]
    · simp [h0, List.replicate_succ]

theorem pop_snd_toList {b : PlayerInputBuffer}
    (hc : ∀ r ∈ b.buffer, 1 ≤ r.2) :
    toList (b.pop_next).2 = (toList b).tail := by
  unfold pop_next
  cases hb : b.buffer with
  | nil =>
    simp only []
    unfold toList
    rw [hb]
    simp
  | cons r rest =>
    obtain ⟨f, c⟩ := r
    have hc1 : 1 ≤ c := hc (f, c) (by rw [hb]; simp)
    obtain ⟨c', rfl⟩ : ∃ c', c = c' + 1 := ⟨c - 1, by omega⟩
    by_cases h0 : c' + 1 - 1 = 0
    · have : c' = 0 := by omega
      subst this
      simp only [if_pos h0]
      unfold toList
      rw [hb]
      simp [List.replicate_succ]
    · simp only [if_neg h0]
      unfold toList
      rw [hb]
      simp only [runsToList_cons, List.replicate_succ, List.cons_append,
        List.tail_cons]
      have : c' + 1 - 1 = c' := by omega
      rw [this]

end PlayerInputBuffer

namespace PlayerInputBuffer

theorem getRuns_eq_getElem (runs : List (NetplayBufferItem × Nat)) (i : Nat) :
    getRuns runs i = (runsToList runs)[i]? := by
  induction runs generalizing i with
  | nil => simp [getRuns]
  | cons r rest ih =>
    obtain ⟨f, c⟩ := r
    by_cases h : c > i
    · simp only [getRuns, if_pos h, runsToList_cons]
      rw [List.getElem?_append]
      simp [h]
    · simp only [getRuns, if_neg h, runsToList_cons]
      rw [List.getElem?_append]
      have hlen : ¬ i < (List.replicate c f).length := by simp; omega
      rw [if_neg hlen]
      simp only [List.length_replicate]
      exact ih (i - c)

theorem get_eq_getElem (b : PlayerInputBuffer) (i : Nat) :
    b.get i = (toList b)[i]? :=
  getRuns_eq_getElem b.buffer i

theorem toList_popN {b : PlayerInputBuffer} (h : Invariant b) (n : Nat) :
    toList (popN b n) = (toList b).drop n ∧ Invariant (popN b n) := by
  induction n generalizing b with
  | zero => exact ⟨by simp [popN], h⟩
  | succ n ih =>
    have hstep := ih (invariant_pop h)
    refine ⟨?_, hstep.2⟩
    rw [popN, hstep.1, pop_snd_toList h.1]
    rw [← List.drop_one, List.drop_drop]
    congr 1
    omega

theorem drainOpt_eq_map_some {b : PlayerInputBuffer} (h : Invariant b)
    {n : Nat} (hn : n = (toList b).length) :
    drainOpt b n = (toList b).map some := by
  induction n generalizing b with
  | zero =>
    have : toList b = [] := List.length_eq_zero.mp hn.symm
    simp [drainOpt, this]
  | succ n ih =>
    cases hl : toList b with
    | nil => rw [hl] at hn; simp at hn
    | cons y ys =>
      have hfst : (b.pop_next).1 = some y := by
        rw [pop_fst_eq h.1, hl]
        rfl
      have hsnd : toList (b.pop_next).2 = ys := by
        rw [pop_snd_toList h.1, hl]
        rfl
      have hlen : n = (toList (b.pop_next).2).length := by
        rw [hsnd]
        rw [hl] at hn
        simpa using hn
      rw [drainOpt, hfst, ih (invariant_pop h) hlen, hsnd]
      simp [hl]

theorem toList_foldl (xs : List NetplayBufferItem) (b : PlayerInputBuffer) :
    toList (xs.foldl push_last b) = toList b ++ xs := by
  induction xs generalizing b with
  | nil => simp
  | cons x xs ih =>
    rw [List.foldl_cons, ih, toList_push, List.append_assoc]
    rfl

theorem invariant_foldl (xs : List NetplayBufferItem) {b : PlayerInputBuffer}
    (h : Invariant b) : Invariant (xs.foldl push_last b) := by
  induction xs generalizing b with
  | nil => exact h
  | cons x xs ih => exact ih (invariant_push h x)

theorem len_foldl (xs : List NetplayBufferItem) (b : PlayerInputBuffer) :
    (xs.foldl push_last b).len = b.len + xs.length := by
  induction xs generalizing b with
  | nil => simp
  | cons x xs ih =>
    rw [List.foldl_cons, ih]
    simp [push_last]
    omega

end PlayerInputBuffer

/-! ### The Drag marshalling pair (`src/client/src/bindable/drag.rs`) -/

/-- Modelled from the spec: the external `Direction` enum (defined in a
repository module outside the provided sources), an equality-comparable
value with a default. -/
inductive Direction
  | noDirection
  | up
  | down
  | left
  | right
deriving DecidableEq, Repr

instance : Inhabited Direction := ⟨Direction.noDirection⟩

/-- `Drag` from `src/client/src/bindable/drag.rs`: a direction plus an
unsigned 32-bit distance (modelled as `Nat`; the marshalling code performs
no arithmetic on it).  Rust `#[derive(Default)]` gives the default
direction and distance 0. -/
structure Drag where
  direction : Direction
  distance : Nat
deriving DecidableEq, Repr

instance : Inhabited Drag := ⟨⟨default, 0⟩⟩

/-- Modelled from the spec: the external table representation restricted
to the two keys the `Drag` mapping reads and writes; `none` in a field
means the key is absent (reading it falls back to the field's default,
mirroring `table.get(..).unwrap_or_default()`). -/
structure DragTable where
  direction : Option Direction
  distance : Option Nat
deriving DecidableEq

/-- Modelled from the spec: the external scripting value kinds the decode
side can receive; only the `table` variant carries `Drag` data. -/
inductive LuaValue
  | nil
  | boolean (b : Bool)
  | number (n : Int)
  | str (s : String)
  | table (t : DragTable)
deriving DecidableEq

/-- `Value::type_name` of the external scripting layer. -/
def LuaValue.typeName : LuaValue → String
  | .nil => "nil"
  | .boolean _ => "boolean"
  | .number _ => "number"
  | .str _ => "string"
  | .table _ => "table"

/-- Whether a value is the table variant. -/
def LuaValue.isTable : LuaValue → Bool
  | .table _ => true
  | _ => false

/-- The conversion failure raised by the decode side
(`rollback_mlua::Error::FromLuaConversionError` with `from` the source
value's type name and `to` the target type name). -/
inductive LuaError
  | fromLuaConversionError (source : String) (target : String)
deriving DecidableEq

/-- `Drag::from_lua`: only a table decodes; each field falls back to its
default when absent. -/
def Drag.from_lua : LuaValue → Except LuaError Drag
  | .table t =>
    Except.ok { direction := t.direction.getD default
                distance := t.distance.getD 0 }
  | v => Except.error (LuaError.fromLuaConversionError v.typeName ("Drag"))

/-- `Drag::into_lua`: builds a table with both fields set. -/
def Drag.into_lua (d : Drag) : LuaValue :=
  LuaValue.table { direction := some d.direction, distance := some d.distance }

namespace PlayerInputBuffer

theorem pop_next_len {b : PlayerInputBuffer} (hne : b.buffer ≠ []) :
    (b.pop_next).2.len = b.len - 1 := by
  obtain ⟨buf, l⟩ := b
  cases buf with
  | nil => exact absurd rfl hne
  | cons r rest =>
    obtain ⟨f, c⟩ := r
    by_cases h0 : c - 1 = 0
    · simp [pop_next, h0]
    · simp [pop_next, h0]

theorem pop_next_isSome {b : PlayerInputBuffer} :
    (b.pop_next).1.isSome = true ↔ b.buffer ≠ [] := by
  obtain ⟨buf, l⟩ := b
  cases buf with
  | nil => simp [pop_next]
  | cons r rest =>
    obtain ⟨f, c⟩ := r
    by_cases h0 : c - 1 = 0
    · simp [pop_next, h0]
    · simp [pop_next, h0]

end PlayerInputBuffer

open PlayerInputBuffer

/-! ### The claims -/

/-- C1, counterexample: the frames `{pressed = [0, 1]}` and
`{pressed = [1, 0]}` have equal input sets and equal signal sets, yet they
compare unequal under the derived `Vec` equality, and two consecutive
`push_last` calls with them leave two runs of count 1 in an empty buffer
rather than one run of count 2. -/
theorem claim1_counterexample :
    NetplayBufferItem.sameSets ⟨[0, 1], []⟩ ⟨[1, 0], []⟩ ∧
      (⟨[0, 1], []⟩ : NetplayBufferItem) ≠ ⟨[1, 0], []⟩ ∧
      (push_last (push_last ⟨[], 0⟩ ⟨[0, 1], []⟩) ⟨[1, 0], []⟩).buffer =
        [(⟨[0, 1], []⟩, 1), (⟨[1, 0], []⟩, 1)] := by
  decide

/-- C1, amended: two `NetplayBufferItem`s are equal iff their `pressed`
and `signals` vectors are equal element-wise in order (the derived `Eq`),
and two consecutive `push_last` calls with frames equal in that sense
extend the tail run, producing a single run of count 2 in an empty
buffer. -/
theorem claim1_theorem :
    (∀ a b : NetplayBufferItem,
      a = b ↔ a.pressed = b.pressed ∧ a.signals = b.signals) ∧
      ∀ x : NetplayBufferItem,
        push_last (push_last ⟨[], 0⟩ x) x = ⟨[(x, 2)], 2⟩ := by
  constructor
  · intro a b
    cases a
    cases b
    simp
  · intro x
    simp [push_last, pushRuns]

/-- C2, counterexample: with `new_with_delay(0)` the seeded zero-count
run breaks FIFO replay: after pushing one non-default frame, draining
`len() = 1` frames yields the default frame, not the pushed frame (the
code underflows the zero count; in a debug build the `*count -= 1`
panics, in release it returns the stale seeded frame). -/
theorem claim2_counterexample :
    drainOpt (push_last (new_with_delay 0) ⟨[0], []⟩)
        (push_last (new_with_delay 0) ⟨[0], []⟩).len ≠
      (List.replicate 0 default ++ [(⟨[0], []⟩ : NetplayBufferItem)]).map some := by
  decide

/-- C2, amended: for every delay ≥ 1 and every sequence of `push_last`
calls on `new_with_delay(delay)`, popping `len()` times returns first
`delay` copies of the default frame and then exactly the pushed frames in
push order. -/
theorem claim2_theorem (d : Nat) (hd : 1 ≤ d) (xs : List NetplayBufferItem) :
    drainOpt (xs.foldl push_last (new_with_delay d))
        (xs.foldl push_last (new_with_delay d)).len =
      (List.replicate d default ++ xs).map some := by
  have hinv : Invariant (xs.foldl push_last (new_with_delay d)) :=
    invariant_foldl xs (invariant_new hd)
  have htl : toList (xs.foldl push_last (new_with_delay d)) =
      List.replicate d default ++ xs := by
    rw [toList_foldl, toList_new]
  have hlen : (xs.foldl push_last (new_with_delay d)).len =
      (toList (xs.foldl push_last (new_with_delay d))).length :=
    len_toList hinv.2.2
  rw [hlen, drainOpt_eq_map_some hinv rfl, htl]

/-- C2 witness: delay 1 and one pushed frame. -/
theorem claim2_witness :
    drainOpt (([⟨[7], []⟩] : List NetplayBufferItem).foldl push_last
        (new_with_delay 1))
        (([⟨[7], []⟩] : List NetplayBufferItem).foldl push_last
          (new_with_delay 1)).len =
      (List.replicate 1 (default : NetplayBufferItem) ++
          [(⟨[7], []⟩ : NetplayBufferItem)]).map some :=
  claim2_theorem 1 (by decide) [⟨[7], []⟩]

/-- C3, counterexample: `new_with_delay(0)` stores the run
`(default, 0)`, so "every stored run count is at least 1" fails in a
reachable state (the initial one) for delay 0. -/
theorem claim3_counterexample :
    ((new_with_delay 0).buffer.all fun r => r.2 != 0) = false := by
  decide

/-- C3, amended: for every delay, `new_with_delay(delay)` yields exactly
the one run `(default, delay)` with `len = delay`; and provided
`delay ≥ 1`, every state reachable by `push_last` / `pop_next` /
`delete_last` / `clear` satisfies: every run count ≥ 1, no two
adjacent runs hold equal frames, and `len` equals the sum of run
counts. -/
theorem claim3_theorem (d : Nat) :
    ((new_with_delay d).buffer = [(default, d)] ∧ (new_with_delay d).len = d) ∧
      (1 ≤ d → ∀ b : PlayerInputBuffer, Reachable d b → Invariant b) :=
  ⟨⟨rfl, rfl⟩, fun hd _b hr => reachable_invariant hd hr⟩

/-- C3 witness: the invariant instantiated at the reachable state
obtained by one push after `new_with_delay 2`. -/
theorem claim3_witness : Invariant (push_last (new_with_delay 2) ⟨[5], []⟩) :=
  (claim3_theorem 2).2 (by decide) _ (Reachable.push _ Reachable.init)

/-- C4, counterexample: `new_with_delay(0)` has `is_empty() = true`
(`len = 0`) but `peek_next` returns the seeded default frame rather than
the empty result, because the zero-count run is still stored. -/
theorem claim4_counterexample :
    (new_with_delay 0).is_empty = true ∧ (new_with_delay 0).peek_next ≠ none := by
  decide

/-- C4, amended: in every state reachable from a construction with
delay ≥ 1 in which `is_empty()` holds, `delete_last` is a no-op,
`pop_next` returns the empty result leaving the buffer unchanged, and
`peek_next` returns the empty result; none of the operations panics. -/
theorem claim4_theorem (d : Nat) (hd : 1 ≤ d) (b : PlayerInputBuffer)
    (hr : Reachable d b) (he : b.is_empty = true) :
    b.delete_last = b ∧ b.pop_next = (none, b) ∧ b.peek_next = none := by
  obtain ⟨hc, hch, hl⟩ := reachable_invariant hd hr
  have hlen0 : b.len = 0 := by
    simpa [is_empty] using he
  have hb : b.buffer = [] := by
    cases hbuf : b.buffer with
    | nil => rfl
    | cons r rest =>
      have h1 : 1 ≤ r.2 := hc r (by rw [hbuf]; simp)
      rw [hlen0, hbuf] at hl
      simp only [sumCounts_cons] at hl
      omega
  obtain ⟨buf, l⟩ := b
  change buf = [] at hb
  subst hb
  exact ⟨rfl, rfl, rfl⟩

/-- C4 witness: popping the single seeded frame of `new_with_delay 1`
reaches an empty state on which all three conclusions hold. -/
theorem claim4_witness :
    ((new_with_delay 1).pop_next).2.delete_last = ((new_with_delay 1).pop_next).2 ∧
      ((new_with_delay 1).pop_next).2.pop_next =
        (none, ((new_with_delay 1).pop_next).2) ∧
      ((new_with_delay 1).pop_next).2.peek_next = none :=
  claim4_theorem 1 (by decide) _ (Reachable.pop Reachable.init) (by decide)

/-- C5, counterexample: from `new_with_delay(0)` (a reachable state),
pushing the default frame merges into the zero-count seeded run and
`delete_last` then drops that whole run, so push-then-delete does not
restore the original run sequence. -/
theorem claim5_counterexample :
    delete_last (push_last (new_with_delay 0) default) ≠ new_with_delay 0 := by
  decide

/-- C5, amended: in every state reachable from a construction with
delay ≥ 1, `push_last(x)` immediately followed by `delete_last()`
restores the run sequence and `len` exactly, for any frame `x`. -/
theorem claim5_theorem (d : Nat) (hd : 1 ≤ d) (b : PlayerInputBuffer)
    (hr : Reachable d b) (x : NetplayBufferItem) :
    (b.push_last x).delete_last = b := by
  have hc := (reachable_invariant hd hr).1
  have hne : (b.push_last x).buffer ≠ [] := pushRuns_ne_nil b.buffer x
  unfold delete_last
  rw [if_neg (by simpa [List.isEmpty_iff] using hne)]
  obtain ⟨buf, l⟩ := b
  simp only [push_last] at *
  rw [delete_pushRuns hc x]
  simp

/-- C5 witness: push then delete on the freshly constructed delay-3
buffer. -/
theorem claim5_witness :
    delete_last (push_last (new_with_delay 3) ⟨[1], []⟩) = new_with_delay 3 :=
  claim5_theorem 3 (by decide) _ Reachable.init ⟨[1], []⟩

/-- C6, counterexample: in the state reached from `new_with_delay(0)` by
one push of a non-default frame, `get(0)` skips the zero-count seeded run
and returns the pushed frame, while popping 0 times and peeking returns
the seeded default frame — random access disagrees with sequential
access at an in-bounds index. -/
theorem claim6_counterexample :
    0 < (push_last (new_with_delay 0) ⟨[0], []⟩).len ∧
      (push_last (new_with_delay 0) ⟨[0], []⟩).get 0 ≠
        (popN (push_last (new_with_delay 0) ⟨[0], []⟩) 0).peek_next := by
  decide

/-- C6, amended: in every state reachable from a construction with
delay ≥ 1, `get(i)` for `i < len` equals the frame obtained by popping
`i` times and then peeking (and `get` mutates nothing — it is a pure
function of the state), while `get(i)` for `i ≥ len` is the empty
result. -/
theorem claim6_theorem (d : Nat) (hd : 1 ≤ d) (b : PlayerInputBuffer)
    (hr : Reachable d b) (i : Nat) :
    (i < b.len → b.get i = (popN b i).peek_next) ∧
      (b.len ≤ i → b.get i = none) := by
  have hinv := reachable_invariant hd hr
  have hlen : b.len = (toList b).length := len_toList hinv.2.2
  obtain ⟨hdrop, hinvN⟩ := toList_popN hinv i
  constructor
  · intro _hi
    rw [get_eq_getElem, peek_eq_head hinvN.1, hdrop, List.head?_drop]
  · intro hi
    rw [get_eq_getElem]
    exact List.getElem?_eq_none (by omega)

/-- C6 witness: index 0 of the freshly constructed delay-1 buffer. -/
theorem claim6_witness :
    get (new_with_delay 1) 0 = (popN (new_with_delay 1) 0).peek_next :=
  (claim6_theorem 1 (by decide) _ Reachable.init 0).1 (by decide)

/-- C7: the disconnect convenience constructor produces a packet whose
`index` is the given participant index and whose data is the `Buffer`
variant with no pressed inputs, exactly the `Disconnect` signal, and an
empty lead sequence. -/
theorem claim7_theorem (i : Nat) :
    (NetplayPacket.new_disconnect_signal i).index = i ∧
      (NetplayPacket.new_disconnect_signal i).data =
        NetplayPacketData.buffer ⟨[], [NetplaySignal.disconnect]⟩ [] :=
  ⟨rfl, rfl⟩

/-- C8: the Drag marshalling pair round-trips every value, rejects every
non-table value with a conversion error naming the source type and the
target `Drag`, and defaults each absent field on decode. -/
theorem claim8_theorem :
    (∀ d : Drag, Drag.from_lua (Drag.into_lua d) = Except.ok d) ∧
      (∀ v : LuaValue, v.isTable = false →
        Drag.from_lua v =
          Except.error (LuaError.fromLuaConversionError v.typeName ("Drag"))) ∧
      (∀ t : DragTable, t.direction = none →
        Drag.from_lua (LuaValue.table t) =
          Except.ok { direction := default, distance := t.distance.getD 0 }) ∧
      (∀ t : DragTable, t.distance = none →
        Drag.from_lua (LuaValue.table t) =
          Except.ok { direction := t.direction.getD default, distance := 0 }) := by
  refine ⟨?_, ?_, ?_, ?_⟩
  · intro d
    cases d
    simp [Drag.into_lua, Drag.from_lua]
  · intro v hv
    cases v <;> simp_all [LuaValue.isTable, Drag.from_lua]
  · intro t ht
    simp [Drag.from_lua, ht]
  · intro t ht
    simp [Drag.from_lua, ht]

/-- C8 witness: a concrete round trip, a concrete rejected non-table
value, and a concrete table with an absent direction field. -/
theorem claim8_witness :
    Drag.from_lua (Drag.into_lua ⟨Direction.up, 3⟩) =
        Except.ok ⟨Direction.up, 3⟩ ∧
      Drag.from_lua LuaValue.nil =
        Except.error (LuaError.fromLuaConversionError ("nil") ("Drag")) ∧
      Drag.from_lua (LuaValue.table ⟨none, some 5⟩) =
        Except.ok ⟨default, 5⟩ :=
  ⟨claim8_theorem.1 ⟨Direction.up, 3⟩, claim8_theorem.2.1 LuaValue.nil rfl,
    claim8_theorem.2.2.1 ⟨none, some 5⟩ rfl⟩

/-- C9: `get` is total on arbitrary buffer states — the walk subtracts a
run's count from the index only when the count does not exceed it, so the
`Nat` subtraction is exact (no usize underflow) — and the result is the
empty result exactly when the index is at least the sum of all stored run
counts. -/
theorem claim9_theorem (b : PlayerInputBuffer) (i : Nat) :
    b.get i = none ↔ sumCounts b.buffer ≤ i := by
  rw [get_eq_getElem, List.getElem?_eq_none_iff, toList, length_runsToList]

/-- C10, counterexample: the state with one run `(default, 1)` but cached
`len = 0` satisfies "every stored run count is at least 1", yet a
successful `pop_next` does not decrease `len` by exactly 1 (the source's
`self.len -= 1` underflows: panic in debug, wrap in release). -/
theorem claim10_counterexample :
    ((⟨[(default, 1)], 0⟩ : PlayerInputBuffer).buffer.all fun r => r.2 != 0) = true ∧
      ((⟨[(default, 1)], 0⟩ : PlayerInputBuffer).pop_next).1.isSome = true ∧
      ¬((⟨[(default, 1)], 0⟩ : PlayerInputBuffer).len =
        ((⟨[(default, 1)], 0⟩ : PlayerInputBuffer).pop_next).2.len + 1) := by
  decide

/-- C10, amended: in every buffer state in which every stored run count
is at least 1 and the cached `len` equals the sum of the run counts,
`pop_next`'s returned frame always agrees with `peek_next` immediately
before the call (in particular one is the empty result exactly when the
other is), and a successful `pop_next` decreases `len` by exactly 1. -/
theorem claim10_theorem (b : PlayerInputBuffer)
    (hc : ∀ r ∈ b.buffer, 1 ≤ r.2) (hl : b.len = sumCounts b.buffer) :
    (b.pop_next).1 = b.peek_next ∧
      ((b.pop_next).1.isSome = true → b.len = (b.pop_next).2.len + 1) := by
  constructor
  · rw [pop_fst_eq hc, peek_eq_head hc]
  · intro hs
    have hne : b.buffer ≠ [] := pop_next_isSome.mp hs
    have hlen1 : 1 ≤ b.len := by
      cases hbuf : b.buffer with
      | nil => exact absurd hbuf hne
      | cons r rest =>
        have h1 : 1 ≤ r.2 := hc r (by rw [hbuf]; simp)
        rw [hl, hbuf]
        simp only [sumCounts_cons]
        omega
    rw [pop_next_len hne]
    omega

/-- C10 witness: the freshly constructed delay-2 buffer. -/
theorem claim10_witness :
    ((new_with_delay 2).pop_next).1 = (new_with_delay 2).peek_next ∧
      (((new_with_delay 2).pop_next).1.isSome = true →
        (new_with_delay 2).len = ((new_with_delay 2).pop_next).2.len + 1) :=
  claim10_theorem (new_with_delay 2) (by decide) (by decide)
